import Mathlib

set_option maxHeartbeats 1000000
set_option autoImplicit false
set_option linter.dupNamespace false

attribute [local semireducible] Rat.add Rat.mul Rat.inv Rat.sub Rat.ofScientific

/-!
Verification development for the crawdad line-breaking engine.

The repository ships the token model in `src/ext/tokens.h`; the
breakpoint-selection engine (cost model, active-set bookkeeping, optimizer,
line extractor) is described by the specification (sections 3, 4, 6, 7) and is
embedded here from the specification's words, since its source file is not part
of the provided tree.  Scalars are modelled as rationals.
-/

/- ------------------------------------------------------------------ -/
/-  Part 1: embedding of `src/ext/tokens.h`                            -/
/- ------------------------------------------------------------------ -/

/-- The `enum token_type { BOX, GLUE, PENALTY }` from `src/ext/tokens.h`. -/
inductive token_type where
  | BOX
  | GLUE
  | PENALTY
  deriving DecidableEq, Repr

/-- The `struct box` from `src/ext/tokens.h`: `enum token_type type; float width; char * content;`. -/
structure box where
  type : token_type
  width : ℚ
  content : String
  deriving DecidableEq, Repr

/-- The `struct glue` from `src/ext/tokens.h`: `enum token_type type; float width; float stretch; float shrink;`. -/
structure glue where
  type : token_type
  width : ℚ
  stretch : ℚ
  shrink : ℚ
  deriving DecidableEq, Repr

/-- The `struct penalty` from `src/ext/tokens.h`: `enum token_type type; float width; float penalty; int flagged;`. -/
structure penalty where
  type : token_type
  width : ℚ
  penalty : ℚ
  flagged : Int
  deriving DecidableEq, Repr

/-- Field layout of `struct box` as declared in `src/ext/tokens.h` (name, C type), in order. -/
def box.layout : List (String × String) :=
  [("type", "enum token_type"), ("width", "float"), ("content", "char *")]

/-- Field layout of `struct glue` as declared in `src/ext/tokens.h` (name, C type), in order. -/
def glue.layout : List (String × String) :=
  [("type", "enum token_type"), ("width", "float"), ("stretch", "float"), ("shrink", "float")]

/-- Field layout of `struct penalty` as declared in `src/ext/tokens.h` (name, C type), in order. -/
def penalty.layout : List (String × String) :=
  [("type", "enum token_type"), ("width", "float"), ("penalty", "float"), ("flagged", "int")]

/-- A value of the C `union { struct box box; struct glue glue; struct penalty penalty; } token`,
identified by the member that was last written (the only member a C union holds). -/
inductive tokenU where
  | viaBox (b : box)
  | viaGlue (g : glue)
  | viaPenalty (p : penalty)
  deriving DecidableEq, Repr

/-- The discriminant carried by the member that was actually written. -/
def tokenU.storedType : tokenU → token_type
  | .viaBox b => b.type
  | .viaGlue g => g.type
  | .viaPenalty p => p.type

/-- Reading `t.box.type` from the union.  All three structs of `tokens.h` begin with
`enum token_type type`, a common initial sequence, so C guarantees this read returns
the first field of whichever struct is stored; that guarantee is the definition here. -/
def tokenU.readTypeViaBox (t : tokenU) : token_type := t.storedType

/-- Reading `t.glue.type` from the union, by the same common-initial-sequence rule. -/
def tokenU.readTypeViaGlue (t : tokenU) : token_type := t.storedType

/-- Reading `t.penalty.type` from the union, by the same common-initial-sequence rule. -/
def tokenU.readTypeViaPenalty (t : tokenU) : token_type := t.storedType

/- ------------------------------------------------------------------ -/
/-  Part 2: the engine's token stream (spec section 3)                 -/
/- ------------------------------------------------------------------ -/

/-- Modelled from the spec: the engine-level Token, "a tagged variant over three
shapes" (spec section 3); the spec's design note says the tagged union of
`tokens.h` "maps directly to a sum type". -/
inductive Token where
  | box (width : ℚ) (content : String)
  | glue (width stretch shrink : ℚ)
  | penalty (width pen : ℚ) (flagged : Bool)
  deriving DecidableEq, Repr

/-- Modelled from the spec: width a token contributes to natural width when it is
internal to a line: boxes and glue contribute their width, "an internal penalty
token that is not a break contributes nothing" (spec 4.1). -/
def Token.internalWidth : Token → ℚ
  | .box w _ => w
  | .glue w _ _ => w
  | .penalty _ _ _ => 0

/-- Modelled from the spec: per-token stretch, nonzero only for glue (spec 4.1). -/
def Token.stretchOf : Token → ℚ
  | .glue _ st _ => st
  | _ => 0

/-- Modelled from the spec: per-token shrink, nonzero only for glue (spec 4.1). -/
def Token.shrinkOf : Token → ℚ
  | .glue _ _ sh => sh
  | _ => 0

/-- Modelled from the spec: the slice of the stream covered by a half-open
token-index range [s, e). -/
def sliceOf (tokens : List Token) (s e : ℕ) : List Token :=
  (tokens.drop s).take (e - s)

/-- Modelled from the spec: width the final token of a range adds if it is the
chosen break point: "`Penalty` tokens contribute their `width` to natural width
only if they are the chosen break point (i.e., for the final token in the
range)" (spec 4.1). -/
def penAtEnd (slice : List Token) : ℚ :=
  match slice.getLast? with
  | some (.penalty w _ _) => w
  | _ => 0

/-- Modelled from the spec: "Natural width = sum of all `Box` widths + sum of
natural `Glue` widths in [start,end)" plus the chosen break penalty's width
(spec 4.1). -/
def naturalWidth (slice : List Token) : ℚ :=
  (slice.map Token.internalWidth).sum + penAtEnd slice

/-- Modelled from the spec: "Total stretch = sum of `Glue.stretch` in range" (spec 4.1). -/
def totalStretch (slice : List Token) : ℚ :=
  (slice.map Token.stretchOf).sum

/-- Modelled from the spec: "Total shrink = sum of `Glue.shrink` in range" (spec 4.1). -/
def totalShrink (slice : List Token) : ℚ :=
  (slice.map Token.shrinkOf).sum

/-- Modelled from the spec: `badness = min(10000, round(100 * |ratio|^3))` (spec 4.1). -/
def badnessOf (r : ℚ) : ℕ :=
  min 10000 (round (100 * |r| ^ 3)).toNat

/-- Modelled from the spec: "`fitness_class` buckets the ratio into
{tight, loose, very-loose, decent}" (spec 4.1).  The spec leaves the bucket
boundaries open (design note, spec 9); the conventional ones are used:
tight = 0 for ratio < -1/2, decent = 1 for |ratio| <= 1/2, loose = 2 for
ratio <= 1, very-loose = 3 beyond. -/
def fitnessOf (r : ℚ) : ℕ :=
  if r < -(1 / 2) then 0
  else if r ≤ 1 / 2 then 1
  else if r ≤ 1 then 2
  else 3

/-- Modelled from the spec: the result of `measure` (spec 4.1), distinguishing
the two infeasibility causes because the active-set rules (spec 4.2) treat them
differently. -/
inductive Fit where
  | infShrink
  | infStretch
  | feasible (adj : ℚ) (badness : ℕ) (fc : ℕ)
  deriving DecidableEq, Repr

/-- Whether a `Fit` is the shrink-side geometric infeasibility. -/
def Fit.isInfShrink : Fit → Bool
  | .infShrink => true
  | _ => false

/-- Whether a `Fit` is feasible. -/
def Fit.isFeasible : Fit → Bool
  | .feasible _ _ _ => true
  | _ => false

/-- Modelled from the spec: `measure(tokens, start, end, target_width) -> Fit`
(spec 4.1).  Infeasible when "required shrink exceeds total available shrink, or
required stretch exceeds available stretch by more than the model's tolerance",
where the tolerance is "max acceptable badness before treating as Infeasible"
(spec 6).  The `forced` flag implements spec 8: forced breaks bypass the
badness-tolerance rejection but not geometric shrink infeasibility; at a forced
break with no stretch available the ratio is reported as 0 with ceiling badness. -/
def measureFit (slice : List Token) (target : ℚ) (tol : ℕ) (forced : Bool) : Fit :=
  if target < naturalWidth slice then
    if target < naturalWidth slice - totalShrink slice then .infShrink
    else
      .feasible ((target - naturalWidth slice) / totalShrink slice)
        (badnessOf ((target - naturalWidth slice) / totalShrink slice))
        (fitnessOf ((target - naturalWidth slice) / totalShrink slice))
  else
    if totalStretch slice = 0 then
      if naturalWidth slice = target then .feasible 0 0 (fitnessOf 0)
      else if forced then .feasible 0 10000 (fitnessOf 0)
      else .infStretch
    else
      if !forced && decide (tol < badnessOf ((target - naturalWidth slice) / totalStretch slice)) then
        .infStretch
      else
        .feasible ((target - naturalWidth slice) / totalStretch slice)
          (badnessOf ((target - naturalWidth slice) / totalStretch slice))
          (fitnessOf ((target - naturalWidth slice) / totalStretch slice))

/- ------------------------------------------------------------------ -/
/-  Part 3: breakpoints and the search loop (spec sections 4.2, 4.3)   -/
/- ------------------------------------------------------------------ -/

/-- Modelled from the spec: a Breakpoint (spec 3): "a candidate split position
... plus the accumulated state needed to resume cost computation: total
demerits on the best path reaching it, the fitness class of the preceding
line, and a back-pointer to its predecessor breakpoint".  `endIdx` is the
exclusive end of the line closed by this break (the break token is the final
token of that line, per spec 4.1); `flag` records whether the break token was a
flagged penalty (for the consecutive-flagged surcharge); `adj` caches the
line's adjustment ratio for the extractor (spec 4.4 allows caching); `serial`
is the creation counter used by the "earliest-created" tie-break (spec 4.3). -/
inductive BP where
  | start : BP
  | node (endIdx : ℕ) (dem : ℚ) (lineCount : ℕ) (fc : ℕ) (flag : Bool)
      (adj : ℚ) (serial : ℕ) (prev : BP)
  deriving DecidableEq, Repr

/-- Exclusive end index of the line closed by this breakpoint (0 for the start). -/
def BP.endIdx : BP → ℕ
  | .start => 0
  | .node e _ _ _ _ _ _ _ => e

/-- Total demerits of the best path reaching this breakpoint. -/
def BP.dem : BP → ℚ
  | .start => 0
  | .node _ d _ _ _ _ _ _ => d

/-- Number of lines on the path reaching this breakpoint. -/
def BP.lineCount : BP → ℕ
  | .start => 0
  | .node _ _ n _ _ _ _ _ => n

/-- Fitness class of the line closed by this breakpoint (decent for the start). -/
def BP.fc : BP → ℕ
  | .start => 1
  | .node _ _ _ c _ _ _ _ => c

/-- Whether this breakpoint's break token was a flagged penalty. -/
def BP.flag : BP → Bool
  | .start => false
  | .node _ _ _ _ f _ _ _ => f

/-- Creation serial of this breakpoint (0 for the start). -/
def BP.serialOf : BP → ℕ
  | .start => 0
  | .node _ _ _ _ _ _ s _ => s

/-- Well-formedness of a breakpoint chain: back pointers walk strictly
decreasing end indices down to the start of the stream. -/
def BP.wf : BP → Prop
  | .start => True
  | .node e _ _ _ _ _ _ prev => prev.endIdx < e ∧ prev.wf

/-- Modelled from the spec: a Line (spec 3): "a half-open token-index range,
plus the computed adjustment ratio ... and the resulting fitness class". -/
structure Line where
  startIdx : ℕ
  endIdx : ℕ
  adj : ℚ
  fc : ℕ
  deriving DecidableEq, Repr

/-- Modelled from the spec: the errors of the error taxonomy (spec 7) that are
values: `NoFeasibleBreak` and `InvalidToken`; `EmptyStream` is "trivially
producing zero lines, not an error". -/
inductive Err where
  | noFeasibleBreak
  | invalidToken
  deriving DecidableEq, Repr

/-- Modelled from the spec: the penalty threshold at and above which a penalty
token forbids a break ("a sufficiently large positive value forbids breaking
there", spec 3).  A concrete constant, chosen per the design note (spec 9). -/
def forbidThreshold : ℚ := 10000

/-- Modelled from the spec: the sentinel at and below which a penalty forces a
break ("a sentinel value ... forces a break", spec 3).  Concrete constant per
the design note (spec 9). -/
def forceThreshold : ℚ := -10000

/-- Modelled from the spec: whether position `i` is a forced break: a penalty
at the forcing sentinel, or the stream's final token, which "is always treated
as a forced break" (spec 3). -/
def isForcedAt (tokens : List Token) (i : ℕ) : Bool :=
  i + 1 == tokens.length ||
    match tokens.get? i with
    | some (.penalty _ p _) => decide (p ≤ forceThreshold)
    | _ => false

/-- Modelled from the spec: the break-legality rule (spec 3): "a break is only
legal (a) at a `Glue` token immediately preceded by a non-discardable token (a
`Box`), or (b) at a `Penalty` token whose `penalty` is below the
forbid-threshold", and the final token is always a (forced) break. -/
def isLegalAt (tokens : List Token) (i : ℕ) : Bool :=
  (match tokens.get? i with
    | some (.glue _ _ _) =>
        decide (0 < i) &&
          match tokens.get? (i - 1) with
          | some (.box _ _) => true
          | _ => false
    | some (.penalty _ p _) => decide (p < forbidThreshold)
    | _ => false) ||
  isForcedAt tokens i

/-- Modelled from the spec: the cost-bias value of the break token at `i`
(the `penalty` field for penalty tokens, 0 otherwise). -/
def breakPen (tokens : List Token) (i : ℕ) : ℚ :=
  match tokens.get? i with
  | some (.penalty _ p _) => p
  | _ => 0

/-- Modelled from the spec: whether the break token at `i` is a flagged penalty. -/
def breakFlag (tokens : List Token) (i : ℕ) : Bool :=
  match tokens.get? i with
  | some (.penalty _ _ f) => f
  | _ => false

/-- Modelled from the spec: demerits of a candidate line (spec 4.1):
`(badness + line_penalty)^2` if `line_penalty >= 0`, `(badness)^2 -
(line_penalty)^2` if negative but not the forced sentinel, `(badness)^2` at the
sentinel; plus a fixed surcharge (100, a concrete choice per spec 9) when the
fitness class differs from the previous line's by more than one, and the same
surcharge when both the current and previous break were flagged. -/
def lineDemerits (b : ℕ) (p : ℚ) (fcNow fcPrev : ℕ) (flagNow flagPrev : Bool) : ℚ :=
  (if p ≤ forceThreshold then (b : ℚ) ^ 2
   else if 0 ≤ p then ((b : ℚ) + p) ^ 2
   else (b : ℚ) ^ 2 - p ^ 2) +
  (if 1 < max fcNow fcPrev - min fcNow fcPrev then 100 else 0) +
  (if flagNow && flagPrev then 100 else 0)

/-- Modelled from the spec: the state of the left-to-right pass: the active set
(spec 4.2) and the creation counter for breakpoint serials. -/
structure SearchState where
  active : List BP
  serial : ℕ
  deriving DecidableEq, Repr

/-- Modelled from the spec: the fit of the candidate line from active
breakpoint end `s` to the break at token index `i` (the line covers [s, i+1)). -/
def edgeFit (tokens : List Token) (target : ℚ) (tol : ℕ) (forced : Bool) (s i : ℕ) : Fit :=
  measureFit (sliceOf tokens s (i + 1)) target tol forced

/-- Modelled from the spec: the candidate breakpoints at position `i`, one per
active breakpoint whose edge to `i` is feasible (spec 4.2's relaxation). -/
def candidatesAt (tokens : List Token) (target : ℚ) (tol : ℕ) (i : ℕ) (s : SearchState) :
    List BP :=
  s.active.filterMap fun a =>
    match edgeFit tokens target tol (isForcedAt tokens i) a.endIdx i with
    | .feasible r b c =>
        some (BP.node (i + 1)
          (a.dem + lineDemerits b (breakPen tokens i) c a.fc (breakFlag tokens i) a.flag)
          (a.lineCount + 1) c (breakFlag tokens i) r s.serial a)
    | _ => none

/-- Tie-break key of a breakpoint: total demerits, then line count, then
creation serial (spec 4.3's determinism requirement). -/
def keyOf (a : BP) : ℚ × ℕ × ℕ :=
  (a.dem, a.lineCount, a.serialOf)

/-- Strict lexicographic comparison of tie-break keys, as a boolean. -/
def keyLtB (x y : ℚ × ℕ × ℕ) : Bool :=
  decide (x.1 < y.1) ||
    (decide (x.1 = y.1) &&
      (decide (x.2.1 < y.2.1) ||
        (decide (x.2.1 = y.2.1) && decide (x.2.2 < y.2.2))))

/-- Lexicographic order of tie-break keys, as a proposition: lower demerits
first, then fewer lines, then earlier creation (spec 4.3). -/
def keyLe (x y : ℚ × ℕ × ℕ) : Prop :=
  x.1 < y.1 ∨ (x.1 = y.1 ∧ (x.2.1 < y.2.1 ∨ (x.2.1 = y.2.1 ∧ x.2.2 ≤ y.2.2)))

/-- Keep the better of two breakpoints under the tie-break key (the accumulator
wins ties, so the earlier element of the list is preferred). -/
def pick (acc x : BP) : BP :=
  if keyLtB (keyOf x) (keyOf acc) then x else acc

/-- Best breakpoint of a list under the tie-break key, if any. -/
def bestOf : List BP → Option BP
  | [] => none
  | x :: xs => some (xs.foldl pick x)

/-- Modelled from the spec: the new breakpoints recorded at position `i`: for
each fitness class, the best candidate arriving at `i` in that class
(spec 4.2: "the active set contains, for each reachable fitness class, the
best (lowest total demerits) breakpoint"). -/
def newNodesAt (tokens : List Token) (target : ℚ) (tol : ℕ) (i : ℕ) (s : SearchState) :
    List BP :=
  [0, 1, 2, 3].filterMap fun c =>
    bestOf ((candidatesAt tokens target tol i s).filter fun x => x.fc == c)

/-- Modelled from the spec: the active breakpoints that survive position `i`:
none at a forced break (every line must end there), and otherwise all whose
edge to `i` is not shrink-infeasible — shrink-exceeded predecessors are
deactivated for all future positions, the pruning rule of spec 9
("pruning when shrink is exceeded forever"); a stretch-infeasible edge only
skips `i` and keeps the breakpoint active. -/
def survivorsAt (tokens : List Token) (target : ℚ) (tol : ℕ) (i : ℕ) (s : SearchState) :
    List BP :=
  if isForcedAt tokens i then []
  else s.active.filter fun a =>
    !(edgeFit tokens target tol (isForcedAt tokens i) a.endIdx i).isInfShrink

/-- Modelled from the spec: one step of the optimizer's scan (spec 4.3): at a
legal break position, relax all active breakpoints and update the active set;
elsewhere leave the state unchanged. -/
def stepAt (tokens : List Token) (target : ℚ) (tol : ℕ) (i : ℕ) (s : SearchState) :
    SearchState :=
  if isLegalAt tokens i then
    let cands := newNodesAt tokens target tol i s
    { active := survivorsAt tokens target tol i s ++ cands
      serial := s.serial + cands.length }
  else s

/-- Modelled from the spec: the state after scanning token positions
`0, ..., i-1` left to right (spec 4.3), from the initial state whose only
active breakpoint is the start of the stream. -/
def scanUpTo (tokens : List Token) (target : ℚ) (tol : ℕ) : ℕ → SearchState
  | 0 => { active := [BP.start], serial := 1 }
  | i + 1 => stepAt tokens target tol i (scanUpTo tokens target tol i)

/-- Modelled from the spec: the breakpoints at the forced final position after
the full scan, among which the answer is chosen (spec 4.3). -/
def finalCands (tokens : List Token) (target : ℚ) (tol : ℕ) : List BP :=
  (scanUpTo tokens target tol tokens.length).active.filter fun a =>
    a.endIdx == tokens.length

/-- Modelled from the spec: the Line Extractor (spec 4.4): walk predecessor
pointers back to the start and emit, in forward order, each line's token range
and cached adjustment ratio. -/
def extract : BP → List Line
  | .start => []
  | .node e _ _ c _ r _ prev => extract prev ++ [⟨prev.endIdx, e, r, c⟩]

/-- Modelled from the spec: `optimize(tokens, target_width) -> Result` (spec
4.3): scan the stream, pick the minimum-demerit breakpoint at the final
position (ties by fewest lines, then earliest-created), and extract the lines;
an empty stream trivially yields zero lines (spec 7); an exhausted active set
yields `NoFeasibleBreak`. -/
def optimize (tokens : List Token) (target : ℚ) (tol : ℕ) : Except Err (List Line) :=
  if tokens.isEmpty then .ok []
  else
    match bestOf (finalCands tokens target tol) with
    | none => .error .noFeasibleBreak
    | some b => .ok (extract b)

/-- Modelled from the spec: whether the active set is exhausted strictly before
the forced final break is processed (spec 4.3's failure condition). -/
def exhaustedBefore (tokens : List Token) (target : ℚ) (tol : ℕ) : Bool :=
  (List.range tokens.length).any fun j =>
    (scanUpTo tokens target tol j).active.isEmpty

/-- Modelled from the spec: the engine run over its caller-visible state (the
immutable token stream, spec 3): the result together with the stream the
caller observes afterwards. -/
def runEngine (tokens : List Token) (target : ℚ) (tol : ℕ) :
    Except Err (List Line) × List Token :=
  (optimize tokens target tol, tokens)

/-- Modelled from the spec: the `InvalidToken` construction-time validity check
(spec 7): a glue must not have negative stretch or shrink, a box must not have
negative width. -/
def validTokenB : Token → Bool
  | .box w _ => decide (0 ≤ w)
  | .glue _ st sh => decide (0 ≤ st) && decide (0 ≤ sh)
  | .penalty _ _ _ => true

/-- Modelled from the spec: construction of the Token Stream, rejecting invalid
tokens with `InvalidToken` (spec 7). -/
def mkStream (tokens : List Token) : Except Err (List Token) :=
  if tokens.all validTokenB then .ok tokens else .error .invalidToken

/-- Geometric validity of a token used by the pruning-soundness theorem:
nonnegative box width, glue shrink between 0 and the glue's width, and
penalties of width 0. -/
def geomTok : Token → Prop
  | .box w _ => 0 ≤ w
  | .glue w _ sh => 0 ≤ sh ∧ sh ≤ w
  | .penalty w _ _ => w = 0

/- ------------------------------------------------------------------ -/
/-  Part 4: derived notions used by the statements                     -/
/- ------------------------------------------------------------------ -/

/-- Sum of the `Box` widths of a slice, as the spec's words state it (spec 4.1). -/
def boxWidthSum (l : List Token) : ℚ :=
  (l.filterMap fun t => match t with | .box w _ => some w | _ => none).sum

/-- Sum of the natural `Glue` widths of a slice, as the spec's words state it (spec 4.1). -/
def glueWidthSum (l : List Token) : ℚ :=
  (l.filterMap fun t => match t with | .glue w _ _ => some w | _ => none).sum

/-- Sum of the `Glue.stretch` values of a slice, as the spec's words state it (spec 4.1). -/
def glueStretchSum (l : List Token) : ℚ :=
  (l.filterMap fun t => match t with | .glue _ st _ => some st | _ => none).sum

/-- Sum of the `Glue.shrink` values of a slice, as the spec's words state it (spec 4.1). -/
def glueShrinkSum (l : List Token) : ℚ :=
  (l.filterMap fun t => match t with | .glue _ _ sh => some sh | _ => none).sum

/-- The token-index ranges of a line list are contiguous from `a`, each
nonempty, and end exactly at `b`: the exact-coverage property of spec 8. -/
def contigFrom : ℕ → List Line → ℕ → Prop
  | a, [], b => a = b
  | a, l :: ls, b => l.startIdx = a ∧ a < l.endIdx ∧ contigFrom l.endIdx ls b

/-- The input stream of the worked scenario of spec 8:
`[Box(80), Glue(10,5,3), Box(80), Glue(10,5,3), Box(80)]`. -/
def scenarioTokens : List Token :=
  [.box 80 "", .glue 10 5 3, .box 80 "", .glue 10 5 3, .box 80 ""]

/- ------------------------------------------------------------------ -/
/-  Part 5: helper lemmas                                              -/
/- ------------------------------------------------------------------ -/

theorem sliceOf_split (tokens : List Token) {s e e' : ℕ} (h1 : s ≤ e) (h2 : e ≤ e') :
    sliceOf tokens s e' = sliceOf tokens s e ++ sliceOf tokens e e' := by
  unfold sliceOf
  have he : e' - s = (e - s) + (e' - e) := by omega
  have hd : s + (e - s) = e := by omega
  rw [he, List.take_add, List.drop_drop, hd]

theorem mem_of_mem_sliceOf {tokens : List Token} {s e : ℕ} {x : Token}
    (h : x ∈ sliceOf tokens s e) : x ∈ tokens :=
  List.drop_subset _ _ (List.take_subset _ _ h)

theorem shrink_nonneg {l : List Token} (h : ∀ t ∈ l, geomTok t) :
    0 ≤ totalShrink l := by
  induction l with
  | nil => simp [totalShrink]
  | cons t ts ih =>
    have ht := h t (List.mem_cons_self t ts)
    have hts : 0 ≤ totalShrink ts := ih fun x hx => h x (List.mem_cons_of_mem t hx)
    have h0 : 0 ≤ t.shrinkOf := by
      cases t with
      | box w c => simp [Token.shrinkOf]
      | glue w st sh =>
        have ht' : 0 ≤ sh ∧ sh ≤ w := by simpa [geomTok] using ht
        simpa [Token.shrinkOf] using ht'.1
      | penalty w p f => simp [Token.shrinkOf]
    simp only [totalShrink, List.map_cons, List.sum_cons] at *
    linarith

theorem shrink_le_internal {l : List Token} (h : ∀ t ∈ l, geomTok t) :
    totalShrink l ≤ (l.map Token.internalWidth).sum := by
  induction l with
  | nil => simp [totalShrink]
  | cons t ts ih =>
    have ht := h t (List.mem_cons_self t ts)
    have hts := ih fun x hx => h x (List.mem_cons_of_mem t hx)
    have h0 : t.shrinkOf ≤ t.internalWidth := by
      cases t with
      | box w c =>
        have ht' : 0 ≤ w := by simpa [geomTok] using ht
        simpa [Token.shrinkOf, Token.internalWidth] using ht'
      | glue w st sh =>
        have ht' : 0 ≤ sh ∧ sh ≤ w := by simpa [geomTok] using ht
        simpa [Token.shrinkOf, Token.internalWidth] using ht'.2
      | penalty w p f => simp [Token.shrinkOf, Token.internalWidth]
    simp only [totalShrink, List.map_cons, List.sum_cons] at *
    linarith

theorem penAtEnd_eq_zero {l : List Token} (h : ∀ t ∈ l, geomTok t) :
    penAtEnd l = 0 := by
  unfold penAtEnd
  cases hl : l.getLast? with
  | none => rfl
  | some t =>
    cases t with
    | box w c => rfl
    | glue w st sh => rfl
    | penalty w p f =>
      have : Token.penalty w p f ∈ l := List.mem_of_mem_getLast? hl
      simpa [geomTok] using h _ this

theorem measureFit_infShrink_iff {slice : List Token} {target : ℚ} {tol : ℕ} {f : Bool}
    (hsh : 0 ≤ totalShrink slice) :
    measureFit slice target tol f = .infShrink ↔
      target < naturalWidth slice - totalShrink slice := by
  constructor
  · intro h
    unfold measureFit at h
    split_ifs at h <;> simp_all
  · intro h
    have h1 : target < naturalWidth slice := lt_of_lt_of_le h (by linarith)
    unfold measureFit
    rw [if_pos h1, if_pos h]

theorem natural_sub_shrink_mono {tokens : List Token} {s e e' : ℕ}
    (hg : ∀ t ∈ tokens, geomTok t) (h1 : s ≤ e) (h2 : e ≤ e') :
    naturalWidth (sliceOf tokens s e) - totalShrink (sliceOf tokens s e) ≤
      naturalWidth (sliceOf tokens s e') - totalShrink (sliceOf tokens s e') := by
  have hsplit := sliceOf_split tokens h1 h2
  have hg1 : ∀ t ∈ sliceOf tokens s e, geomTok t :=
    fun t ht => hg t (mem_of_mem_sliceOf ht)
  have hg2 : ∀ t ∈ sliceOf tokens e e', geomTok t :=
    fun t ht => hg t (mem_of_mem_sliceOf ht)
  have hg' : ∀ t ∈ sliceOf tokens s e', geomTok t :=
    fun t ht => hg t (mem_of_mem_sliceOf ht)
  have hpen1 : penAtEnd (sliceOf tokens s e) = 0 := penAtEnd_eq_zero hg1
  have hpen' : penAtEnd (sliceOf tokens s e') = 0 := penAtEnd_eq_zero hg'
  have hmid : totalShrink (sliceOf tokens e e') ≤
      ((sliceOf tokens e e').map Token.internalWidth).sum :=
    shrink_le_internal hg2
  rw [naturalWidth, naturalWidth, hpen1, hpen', hsplit]
  rw [totalShrink, totalShrink] at *
  rw [List.map_append, List.sum_append, List.map_append, List.sum_append]
  linarith


theorem measureFit_feasible_spec {slice : List Token} {target : ℚ} {tol : ℕ}
    {r : ℚ} {b c : ℕ}
    (h : measureFit slice target tol false = .feasible r b c) :
    b = badnessOf r ∧ c = fitnessOf r ∧
      (naturalWidth slice < target →
        r = (target - naturalWidth slice) / totalStretch slice) ∧
      (target < naturalWidth slice →
        r = (target - naturalWidth slice) / totalShrink slice) := by
  unfold measureFit at h
  split_ifs at h with h1 h2 h3 h4 h5 h6
  all_goals try exact Fit.noConfusion h
  all_goals simp only [Fit.feasible.injEq] at h
  all_goals obtain ⟨hr, hb, hc⟩ := h
  all_goals subst hr
  all_goals try exact h5.elim
  · refine ⟨hb.symm, hc.symm, ?_, ?_⟩
    · intro hlt
      exact absurd hlt (lt_asymm h1)
    · intro _
      rfl
  · have hb0 : badnessOf 0 = 0 := by simp [badnessOf]
    refine ⟨by rw [← hb, hb0], hc.symm, ?_, ?_⟩
    · intro hlt
      rw [h4] at hlt
      exact absurd hlt (lt_irrefl _)
    · intro hlt
      exact absurd hlt h1
  · refine ⟨hb.symm, hc.symm, ?_, ?_⟩
    · intro _
      rfl
    · intro hlt
      exact absurd hlt h1

theorem measureFit_tol_mono {slice : List Token} {target : ℚ} {t1 t2 : ℕ} {f : Bool}
    {r : ℚ} {b c : ℕ} (hle : t1 ≤ t2)
    (h : measureFit slice target t1 f = .feasible r b c) :
    measureFit slice target t2 f = .feasible r b c := by
  cases f with
  | true =>
    unfold measureFit at h ⊢
    split_ifs at h ⊢ <;>
      first
        | exact Fit.noConfusion h
        | exact h
        | simp_all
  | false =>
    unfold measureFit at h ⊢
    split_ifs at h ⊢ with h1 h2 h3 h4 h5 h6 h7
    all_goals try exact Fit.noConfusion h
    all_goals try exact h
    all_goals
      exfalso
      simp only [Bool.not_false, Bool.true_and, decide_eq_true_eq] at *
      omega

theorem keyLe_refl (k : ℚ × ℕ × ℕ) : keyLe k k := by
  right
  exact ⟨rfl, Or.inr ⟨rfl, le_refl _⟩⟩

theorem keyLe_trans {k1 k2 k3 : ℚ × ℕ × ℕ} (h1 : keyLe k1 k2) (h2 : keyLe k2 k3) :
    keyLe k1 k3 := by
  unfold keyLe at *
  rcases h1 with h1 | ⟨e1, h1⟩
  · rcases h2 with h2 | ⟨e2, h2⟩
    · exact Or.inl (lt_trans h1 h2)
    · exact Or.inl (e2 ▸ h1)
  · rcases h2 with h2 | ⟨e2, h2⟩
    · exact Or.inl (e1 ▸ h2)
    · refine Or.inr ⟨e1.trans e2, ?_⟩
      rcases h1 with h1 | ⟨f1, h1⟩
      · rcases h2 with h2 | ⟨f2, h2⟩
        · exact Or.inl (lt_trans h1 h2)
        · exact Or.inl (f2 ▸ h1)
      · rcases h2 with h2 | ⟨f2, h2⟩
        · exact Or.inl (f1 ▸ h2)
        · exact Or.inr ⟨f1.trans f2, le_trans h1 h2⟩

theorem keyLe_of_keyLtB_eq_false {k1 k2 : ℚ × ℕ × ℕ} (h : keyLtB k1 k2 = false) :
    keyLe k2 k1 := by
  unfold keyLe
  rcases lt_trichotomy k2.1 k1.1 with hq | hq | hq
  · exact Or.inl hq
  · rcases lt_trichotomy k2.2.1 k1.2.1 with hn | hn | hn
    · exact Or.inr ⟨hq, Or.inl hn⟩
    · refine Or.inr ⟨hq, Or.inr ⟨hn, ?_⟩⟩
      by_contra hs
      push_neg at hs
      have ht : keyLtB k1 k2 = true := by
        unfold keyLtB
        simp [hq.symm, hn.symm, hs]
      rw [h] at ht
      exact Bool.noConfusion ht
    · exfalso
      have ht : keyLtB k1 k2 = true := by
        unfold keyLtB
        simp [hq.symm, hn]
      rw [h] at ht
      exact Bool.noConfusion ht
  · exfalso
    have ht : keyLtB k1 k2 = true := by
      unfold keyLtB
      simp [hq]
    rw [h] at ht
    exact Bool.noConfusion ht

theorem keyLe_of_keyLtB_eq_true {k1 k2 : ℚ × ℕ × ℕ} (h : keyLtB k1 k2 = true) :
    keyLe k1 k2 := by
  unfold keyLtB at h
  simp only [Bool.or_eq_true, Bool.and_eq_true, decide_eq_true_eq] at h
  unfold keyLe
  rcases h with h | ⟨hd, h⟩
  · exact Or.inl h
  · refine Or.inr ⟨hd, ?_⟩
    rcases h with h | ⟨hn, h⟩
    · exact Or.inl h
    · exact Or.inr ⟨hn, le_of_lt h⟩

theorem pick_keyLe_left (acc x : BP) : keyLe (keyOf (pick acc x)) (keyOf acc) := by
  unfold pick
  by_cases h : keyLtB (keyOf x) (keyOf acc) = true
  · rw [if_pos h]
    exact keyLe_of_keyLtB_eq_true h
  · rw [if_neg h]
    exact keyLe_refl _

theorem pick_keyLe_right (acc x : BP) : keyLe (keyOf (pick acc x)) (keyOf x) := by
  unfold pick
  by_cases h : keyLtB (keyOf x) (keyOf acc) = true
  · rw [if_pos h]
    exact keyLe_refl _
  · rw [if_neg h]
    exact keyLe_of_keyLtB_eq_false (Bool.not_eq_true _ ▸ h)

theorem pick_eq_or (acc x : BP) : pick acc x = acc ∨ pick acc x = x := by
  unfold pick
  by_cases h : keyLtB (keyOf x) (keyOf acc) = true
  · rw [if_pos h]
    exact Or.inr rfl
  · rw [if_neg h]
    exact Or.inl rfl

theorem foldl_pick_mem (xs : List BP) (acc : BP) :
    xs.foldl pick acc = acc ∨ xs.foldl pick acc ∈ xs := by
  induction xs generalizing acc with
  | nil => exact Or.inl rfl
  | cons x xs ih =>
    rw [List.foldl_cons]
    rcases ih (pick acc x) with h | h
    · rcases pick_eq_or acc x with h2 | h2
      · exact Or.inl (h.trans h2)
      · right
        rw [h, h2]
        exact List.mem_cons_self x xs
    · exact Or.inr (List.mem_cons_of_mem x h)

theorem foldl_pick_min (xs : List BP) (acc : BP) :
    keyLe (keyOf (xs.foldl pick acc)) (keyOf acc) ∧
      ∀ x ∈ xs, keyLe (keyOf (xs.foldl pick acc)) (keyOf x) := by
  induction xs generalizing acc with
  | nil => exact ⟨keyLe_refl _, by simp⟩
  | cons x xs ih =>
    rw [List.foldl_cons]
    obtain ⟨ih1, ih2⟩ := ih (pick acc x)
    refine ⟨keyLe_trans ih1 (pick_keyLe_left acc x), ?_⟩
    intro y hy
    rcases List.mem_cons.1 hy with rfl | hy
    · exact keyLe_trans ih1 (pick_keyLe_right acc y)
    · exact ih2 y hy

theorem bestOf_mem {l : List BP} {m : BP} (h : bestOf l = some m) : m ∈ l := by
  cases l with
  | nil => exact Option.noConfusion h
  | cons x xs =>
    unfold bestOf at h
    have hm : xs.foldl pick x = m := Option.some.inj h
    subst hm
    rcases foldl_pick_mem xs x with h2 | h2
    · rw [h2]
      exact List.mem_cons_self x xs
    · exact List.mem_cons_of_mem x h2

theorem bestOf_min {l : List BP} {m : BP} (h : bestOf l = some m) :
    ∀ x ∈ l, keyLe (keyOf m) (keyOf x) := by
  cases l with
  | nil => exact Option.noConfusion h
  | cons x xs =>
    unfold bestOf at h
    have hm : xs.foldl pick x = m := Option.some.inj h
    subst hm
    intro y hy
    obtain ⟨h1, h2⟩ := foldl_pick_min xs x
    rcases List.mem_cons.1 hy with rfl | hy
    · exact h1
    · exact h2 y hy

theorem mem_candidatesAt {tokens : List Token} {target : ℚ} {tol : ℕ} {i : ℕ}
    {s : SearchState} {x : BP} (hx : x ∈ candidatesAt tokens target tol i s) :
    ∃ a ∈ s.active, x.endIdx = i + 1 ∧ x.wf = (a.endIdx < i + 1 ∧ a.wf) := by
  unfold candidatesAt at hx
  obtain ⟨a, ha, hfa⟩ := List.mem_filterMap.1 hx
  refine ⟨a, ha, ?_⟩
  cases hfit : edgeFit tokens target tol (isForcedAt tokens i) a.endIdx i with
  | infShrink => rw [hfit] at hfa; exact Option.noConfusion hfa
  | infStretch => rw [hfit] at hfa; exact Option.noConfusion hfa
  | feasible r b c =>
    rw [hfit] at hfa
    have hx' := Option.some.inj hfa
    subst hx'
    exact ⟨rfl, rfl⟩

theorem mem_newNodesAt {tokens : List Token} {target : ℚ} {tol : ℕ} {i : ℕ}
    {s : SearchState} {x : BP} (hx : x ∈ newNodesAt tokens target tol i s) :
    x ∈ candidatesAt tokens target tol i s := by
  unfold newNodesAt at hx
  obtain ⟨c, _, hc⟩ := List.mem_filterMap.1 hx
  exact List.mem_filter.1 (bestOf_mem hc) |>.1

/-- The scan invariant: every active breakpoint has a well-formed chain and an
end index no greater than the number of positions processed so far. -/
theorem scan_invariant (tokens : List Token) (target : ℚ) (tol : ℕ) :
    ∀ i, ∀ a ∈ (scanUpTo tokens target tol i).active, a.wf ∧ a.endIdx ≤ i := by
  intro i
  induction i with
  | zero =>
    intro a ha
    have : a = BP.start := by simpa [scanUpTo] using ha
    subst this
    exact ⟨trivial, le_refl _⟩
  | succ i ih =>
    intro a ha
    rw [scanUpTo] at ha
    unfold stepAt at ha
    by_cases hleg : isLegalAt tokens i = true
    · rw [if_pos hleg] at ha
      simp only [List.mem_append] at ha
      rcases ha with ha | ha
      · unfold survivorsAt at ha
        by_cases hforced : isForcedAt tokens i = true
        · rw [if_pos hforced] at ha
          exact absurd ha (List.not_mem_nil a)
        · rw [if_neg hforced] at ha
          obtain ⟨ha, _⟩ := List.mem_filter.1 ha
          obtain ⟨hwf, hle⟩ := ih a ha
          exact ⟨hwf, Nat.le_succ_of_le hle⟩
      · obtain ⟨p, hp, hend, hwf⟩ := mem_candidatesAt (mem_newNodesAt ha)
        obtain ⟨hpwf, hple⟩ := ih p hp
        refine ⟨?_, le_of_eq hend⟩
        rw [hwf]
        exact ⟨Nat.lt_succ_of_le hple, hpwf⟩
    · rw [if_neg hleg] at ha
      obtain ⟨hwf, hle⟩ := ih a ha
      exact ⟨hwf, Nat.le_succ_of_le hle⟩

theorem contigFrom_append {a m : ℕ} {xs : List Line} {l : Line}
    (h : contigFrom a xs m) (h1 : l.startIdx = m) (h2 : m < l.endIdx) :
    contigFrom a (xs ++ [l]) l.endIdx := by
  induction xs generalizing a with
  | nil =>
    obtain rfl : a = m := h
    exact ⟨h1, h2, rfl⟩
  | cons y ys ih =>
    obtain ⟨hy, hlt, hrest⟩ := h
    exact ⟨hy, hlt, ih hrest⟩

theorem extract_contigFrom {b : BP} (h : b.wf) :
    contigFrom 0 (extract b) b.endIdx := by
  induction b with
  | start => rfl
  | node e d lc c fl r ser prev ih =>
    obtain ⟨hlt, hwf⟩ := h
    exact contigFrom_append (ih hwf) rfl hlt

theorem stepAt_empty {tokens : List Token} {target : ℚ} {tol : ℕ} {i : ℕ}
    {s : SearchState} (h : s.active = []) :
    (stepAt tokens target tol i s).active = [] := by
  have hc : candidatesAt tokens target tol i s = [] := by
    unfold candidatesAt
    rw [h]
    rfl
  have hn : newNodesAt tokens target tol i s = [] := by
    unfold newNodesAt
    rw [hc]
    rfl
  have hs : survivorsAt tokens target tol i s = [] := by
    unfold survivorsAt
    by_cases hf : isForcedAt tokens i = true
    · rw [if_pos hf]
    · rw [if_neg hf, h]
      rfl
  unfold stepAt
  by_cases hleg : isLegalAt tokens i = true
  · rw [if_pos hleg]
    simp only [hn, hs]
    rfl
  · rw [if_neg hleg]
    exact h

theorem scan_empty_persists {tokens : List Token} {target : ℚ} {tol : ℕ} {j k : ℕ}
    (hjk : j ≤ k) (h : (scanUpTo tokens target tol j).active = []) :
    (scanUpTo tokens target tol k).active = [] := by
  induction k, hjk using Nat.le_induction with
  | base => exact h
  | succ k hk ih =>
    rw [scanUpTo]
    exact stepAt_empty ih

theorem stepAt_deactivates {tokens : List Token} {target : ℚ} {tol : ℕ} {i : ℕ}
    {s : SearchState} {a : BP} (hi : a.endIdx ≤ i)
    (hfit : edgeFit tokens target tol (isForcedAt tokens i) a.endIdx i = .infShrink)
    (hleg : isLegalAt tokens i = true) :
    a ∉ (stepAt tokens target tol i s).active := by
  intro hmem
  unfold stepAt at hmem
  rw [if_pos hleg] at hmem
  simp only [List.mem_append] at hmem
  rcases hmem with hmem | hmem
  · unfold survivorsAt at hmem
    by_cases hf : isForcedAt tokens i = true
    · rw [if_pos hf] at hmem
      exact absurd hmem (List.not_mem_nil a)
    · rw [if_neg hf] at hmem
      obtain ⟨_, hsur⟩ := List.mem_filter.1 hmem
      rw [hfit] at hsur
      simp [Fit.isInfShrink] at hsur
  · obtain ⟨p, _, hend, _⟩ := mem_candidatesAt (mem_newNodesAt hmem)
    omega

theorem internal_sum_decomp (l : List Token) :
    (l.map Token.internalWidth).sum = boxWidthSum l + glueWidthSum l := by
  induction l with
  | nil => simp [boxWidthSum, glueWidthSum]
  | cons t ts ih =>
    cases t <;>
      simp [boxWidthSum, glueWidthSum, Token.internalWidth, List.filterMap_cons, ih] <;>
      ring

theorem stretch_sum_decomp (l : List Token) : totalStretch l = glueStretchSum l := by
  induction l with
  | nil => simp [totalStretch, glueStretchSum]
  | cons t ts ih =>
    cases t <;>
      simp [totalStretch, glueStretchSum, Token.stretchOf, List.filterMap_cons] <;>
      simp [totalStretch, glueStretchSum] at ih <;>
      simp [ih]

theorem shrink_sum_decomp (l : List Token) : totalShrink l = glueShrinkSum l := by
  induction l with
  | nil => simp [totalShrink, glueShrinkSum]
  | cons t ts ih =>
    cases t <;>
      simp [totalShrink, glueShrinkSum, Token.shrinkOf, List.filterMap_cons] <;>
      simp [totalShrink, glueShrinkSum] at ih <;>
      simp [ih]

theorem badnessOf_cast (r : ℚ) :
    ((badnessOf r : ℕ) : ℤ) = min 10000 (round (100 * |r| ^ 3)) := by
  have h0 : (0 : ℤ) ≤ round (100 * |r| ^ 3) := by
    rw [round_eq]
    refine Int.floor_nonneg.2 ?_
    positivity
  unfold badnessOf
  rw [Nat.cast_min, Int.toNat_of_nonneg h0]
  norm_num

/- ------------------------------------------------------------------ -/
/-  Part 6: the claims                                                 -/
/- ------------------------------------------------------------------ -/

/-- Claim C1: whenever `optimize` succeeds, the token-index ranges of the
produced lines are contiguous, non-overlapping, nonempty, and exactly cover
the whole input stream: the first starts at 0, each next line starts where the
previous ended, and the last ends at the stream's length. -/
theorem C1_exact_cover (tokens : List Token) (target : ℚ) (tol : ℕ) (lines : List Line)
    (h : optimize tokens target tol = .ok lines) :
    contigFrom 0 lines tokens.length := by
  unfold optimize at h
  split at h
  next he =>
    have hl : ([] : List Line) = lines := Except.ok.inj h
    have hlen : tokens.length = 0 := by
      rw [List.isEmpty_iff.1 he]
      rfl
    rw [← hl]
    simp [contigFrom, hlen]
  next he =>
    split at h
    next hb => exact Except.noConfusion h
    next b hb =>
      have hl : extract b = lines := Except.ok.inj h
      subst hl
      have hbmem := bestOf_mem hb
      unfold finalCands at hbmem
      obtain ⟨hmem, hend⟩ := List.mem_filter.1 hbmem
      have hwf := (scan_invariant tokens target tol tokens.length b hmem).1
      have hendeq : b.endIdx = tokens.length := by simpa using hend
      rw [← hendeq]
      exact extract_contigFrom hwf

/-- Witness for C1 at the spec-8 scenario input. -/
theorem C1_exact_cover_witness :
    contigFrom 0 [⟨0, 4, 0, 1⟩, ⟨4, 5, 0, 1⟩] scenarioTokens.length :=
  C1_exact_cover scenarioTokens 180 100 [⟨0, 4, 0, 1⟩, ⟨4, 5, 0, 1⟩] rfl

/-- Claim C2: `optimize` is deterministic (a pure function of its input), and
the answering breakpoint chosen at the final position is minimal among all
final candidates in the lexicographic order: total demerits, then line count,
then creation serial — exact ties resolve to fewest lines, then
earliest-created, identically on every run. -/
theorem C2_deterministic_tiebreak (tokens : List Token) (target : ℚ) (tol : ℕ) :
    optimize tokens target tol = optimize tokens target tol ∧
      ∀ b, bestOf (finalCands tokens target tol) = some b →
        ∀ c ∈ finalCands tokens target tol, keyLe (keyOf b) (keyOf c) :=
  ⟨rfl, fun _ hb _ hc => bestOf_min hb _ hc⟩

/-- Witness for C2 at the spec-8 scenario input. -/
theorem C2_deterministic_tiebreak_witness :
    keyLe (keyOf (BP.node 5 100000000 2 1 false 0 2 (BP.node 4 0 1 1 false 0 1 .start)))
      (keyOf (BP.node 5 100000000 2 1 false 0 2 (BP.node 4 0 1 1 false 0 1 .start))) :=
  (C2_deterministic_tiebreak scenarioTokens 180 100).2 _ (by decide) _ (by decide)

/-- Claim C3: if the active set is exhausted strictly before the forced final
break, `optimize` returns the explicit `NoFeasibleBreak` error; every failure
of `optimize` is `NoFeasibleBreak` (it never silently degrades or retries with
another outcome); and the engine leaves the caller-visible state (the immutable
token stream) unchanged. -/
theorem C3_no_feasible_break (tokens : List Token) (target : ℚ) (tol : ℕ) :
    (exhaustedBefore tokens target tol = true →
      optimize tokens target tol = .error .noFeasibleBreak) ∧
      (∀ e, optimize tokens target tol = .error e → e = .noFeasibleBreak) ∧
      (runEngine tokens target tol).2 = tokens := by
  refine ⟨?_, ?_, rfl⟩
  · intro hex
    unfold exhaustedBefore at hex
    obtain ⟨j, hj, hempty⟩ := List.any_eq_true.1 hex
    have hjn : j < tokens.length := List.mem_range.1 hj
    have hn : (scanUpTo tokens target tol tokens.length).active = [] :=
      scan_empty_persists (Nat.le_of_lt hjn) (List.isEmpty_iff.1 hempty)
    have hfc : finalCands tokens target tol = [] := by
      unfold finalCands
      rw [hn]
      rfl
    have hne : ¬tokens.isEmpty = true := by
      intro habs
      rw [List.isEmpty_iff.1 habs] at hjn
      simp at hjn
    unfold optimize
    rw [if_neg hne, hfc]
    rfl
  · intro e he
    unfold optimize at he
    split at he
    next => exact Except.noConfusion he
    next =>
      split at he
      next => exact (Except.error.inj he).symm
      next => exact Except.noConfusion he

/-- Witness for C3: a stream whose oversized first box prunes the whole active
set at the first legal break, well before the forced final break. -/
theorem C3_no_feasible_break_witness :
    optimize [Token.box 500 "", .glue 10 5 5, .box 1 "", .glue 1 1 1, .box 1 ""] 100 100 =
        .error .noFeasibleBreak ∧
      (runEngine [Token.box 500 "", .glue 10 5 5, .box 1 "", .glue 1 1 1, .box 1 ""] 100 100).2 =
        [Token.box 500 "", .glue 10 5 5, .box 1 "", .glue 1 1 1, .box 1 ""] :=
  ⟨(C3_no_feasible_break _ 100 100).1 (by decide),
   (C3_no_feasible_break _ 100 100).2.2⟩

/-- Claim C4: for every feasible (non-forced) token run, the cost model's
measure returns ratio (target − natural)/stretch when expanding and
(target − natural)/shrink when compressing, and badness
min(10000, round(100·|ratio|³)). -/
theorem C4_cost_model (slice : List Token) (target : ℚ) (tol : ℕ) (r : ℚ) (b c : ℕ)
    (h : measureFit slice target tol false = .feasible r b c) :
    ((b : ℕ) : ℤ) = min 10000 (round (100 * |r| ^ 3)) ∧
      (naturalWidth slice < target →
        r = (target - naturalWidth slice) / totalStretch slice) ∧
      (target < naturalWidth slice →
        r = (target - naturalWidth slice) / totalShrink slice) := by
  obtain ⟨hb, _, h1, h2⟩ := measureFit_feasible_spec h
  refine ⟨?_, h1, h2⟩
  rw [hb]
  exact badnessOf_cast r

/-- Witness for C4 at the run Box(80) Glue(10,5,3) Box(80) against width 180:
ratio 2, badness 800. -/
theorem C4_cost_model_witness :
    ((800 : ℕ) : ℤ) = min 10000 (round (100 * |(2 : ℚ)| ^ 3)) ∧
      (naturalWidth [Token.box 80 "", .glue 10 5 3, .box 80 ""] < 180 →
        (2 : ℚ) = (180 - naturalWidth [Token.box 80 "", .glue 10 5 3, .box 80 ""]) /
          totalStretch [Token.box 80 "", .glue 10 5 3, .box 80 ""]) ∧
      (180 < naturalWidth [Token.box 80 "", .glue 10 5 3, .box 80 ""] →
        (2 : ℚ) = (180 - naturalWidth [Token.box 80 "", .glue 10 5 3, .box 80 ""]) /
          totalShrink [Token.box 80 "", .glue 10 5 3, .box 80 ""]) :=
  C4_cost_model [Token.box 80 "", .glue 10 5 3, .box 80 ""] 180 1000 2 800 3 (by decide)

/-- Claim C5: natural width of a range equals the sum of the Box widths plus
the sum of the natural Glue widths plus the break token's width exactly when
the final token of the range is a Penalty (an internal, non-breaking penalty
contributes nothing), and total stretch/shrink are the sums of Glue
stretch/shrink over the range. -/
theorem C5_natural_width_decomp (slice : List Token) :
    naturalWidth slice = boxWidthSum slice + glueWidthSum slice + penAtEnd slice ∧
      totalStretch slice = glueStretchSum slice ∧
      totalShrink slice = glueShrinkSum slice ∧
      (∀ w p fl, slice.getLast? = some (.penalty w p fl) → penAtEnd slice = w) ∧
      (∀ w co, slice.getLast? = some (.box w co) → penAtEnd slice = 0) ∧
      (∀ w st sh, slice.getLast? = some (.glue w st sh) → penAtEnd slice = 0) := by
  refine ⟨?_, stretch_sum_decomp slice, shrink_sum_decomp slice, ?_, ?_, ?_⟩
  · unfold naturalWidth
    rw [internal_sum_decomp]
  · intro w p fl h
    unfold penAtEnd
    rw [h]
  · intro w co h
    unfold penAtEnd
    rw [h]
  · intro w st sh h
    unfold penAtEnd
    rw [h]

/-- Witness for C5 at a concrete range ending in a Penalty of width 7. -/
theorem C5_natural_width_decomp_witness :
    naturalWidth [Token.box 2 "", .penalty 7 0 false] =
        boxWidthSum [Token.box 2 "", .penalty 7 0 false] +
          glueWidthSum [Token.box 2 "", .penalty 7 0 false] +
          penAtEnd [Token.box 2 "", .penalty 7 0 false] ∧
      penAtEnd [Token.box 2 "", .penalty 7 0 false] = 7 :=
  ⟨(C5_natural_width_decomp _).1,
   (C5_natural_width_decomp _).2.2.2.1 7 0 false rfl⟩

/-- Claim C6 counterexample: stretch-infeasibility is not monotone in the
position, so the stretch-pruning rule of the claim is unsound: on the stream
Box(10) Glue(10,100,1) Box(150) Glue(10,5,3) at width 180 and tolerance 100,
the run [0,2) is Infeasible because required stretch is exceeded, yet the
longer run [0,4) from the same start is feasible (ratio 0); moreover the
optimizer does not deactivate a breakpoint over a stretch-infeasible edge: on
the spec-8 scenario the start breakpoint survives position 1, whose edge is
stretch-infeasible. -/
theorem C6_stretch_prune_cex :
    measureFit (sliceOf [Token.box 10 "", .glue 10 100 1, .box 150 "", .glue 10 5 3] 0 2)
        180 100 false = .infStretch ∧
      measureFit (sliceOf [Token.box 10 "", .glue 10 100 1, .box 150 "", .glue 10 5 3] 0 4)
        180 100 false = .feasible 0 0 1 ∧
      edgeFit scenarioTokens 180 100 (isForcedAt scenarioTokens 1) BP.start.endIdx 1 =
        .infStretch ∧
      BP.start ∈ (stepAt scenarioTokens 180 100 1 ⟨[BP.start], 1⟩).active := by
  refine ⟨by decide, by decide, by decide, by decide⟩

/-- Claim C6 (amended): the sound and applied pruning rule is the shrink-side
one (spec 9): for geometrically valid tokens (nonnegative box widths, glue
shrink between 0 and the glue width, penalty widths 0), a run that is
Infeasible because required shrink exceeds available shrink stays
shrink-infeasible for every longer run from the same start, and the optimizer
deactivates an active breakpoint whose edge to the current position is
shrink-infeasible. -/
theorem C6_shrink_prune_sound (tokens : List Token) (target : ℚ) (tol : ℕ) :
    (∀ s e e' f f', (∀ t ∈ tokens, geomTok t) → s ≤ e → e ≤ e' →
        measureFit (sliceOf tokens s e) target tol f = .infShrink →
        measureFit (sliceOf tokens s e') target tol f' = .infShrink) ∧
      (∀ i st a, BP.endIdx a ≤ i →
        edgeFit tokens target tol (isForcedAt tokens i) a.endIdx i = .infShrink →
        isLegalAt tokens i = true →
        a ∉ (stepAt tokens target tol i st).active) := by
  constructor
  · intro s e e' f f' hg h1 h2 hinf
    have hg1 : ∀ t ∈ sliceOf tokens s e, geomTok t :=
      fun t ht => hg t (mem_of_mem_sliceOf ht)
    have hg2 : ∀ t ∈ sliceOf tokens s e', geomTok t :=
      fun t ht => hg t (mem_of_mem_sliceOf ht)
    have hlt := (measureFit_infShrink_iff (shrink_nonneg hg1)).1 hinf
    refine (measureFit_infShrink_iff (shrink_nonneg hg2)).2 ?_
    have hmono := natural_sub_shrink_mono hg h1 h2
    linarith
  · intro i st a hi hfit hleg
    exact stepAt_deactivates hi hfit hleg

/-- Witness for the amended C6 on the stream Box(200) Glue(10,5,5) Box(50) at
width 100: the run [0,2) is shrink-infeasible, hence so is [0,3), and the
start breakpoint is deactivated at position 1. -/
theorem C6_shrink_prune_sound_witness :
    measureFit (sliceOf [Token.box 200 "", .glue 10 5 5, .box 50 ""] 0 3) 100 100 false =
        .infShrink ∧
      BP.start ∉ (stepAt [Token.box 200 "", .glue 10 5 5, .box 50 ""] 100 100 1
        ⟨[BP.start], 1⟩).active :=
  ⟨(C6_shrink_prune_sound [Token.box 200 "", .glue 10 5 5, .box 50 ""] 100 100).1
      0 2 3 false false
      (by
        intro t ht
        fin_cases ht <;> simp [geomTok] <;> norm_num)
      (by decide) (by decide) (by decide),
   (C6_shrink_prune_sound [Token.box 200 "", .glue 10 5 5, .box 50 ""] 100 100).2
      1 ⟨[BP.start], 1⟩ BP.start (by decide) (by decide) (by decide)⟩

/-- Claim C7: increasing the badness tolerance never loses a feasible fit: a
run measured feasible under tolerance `t1` measures identically feasible under
any tolerance `t2 ≥ t1`. -/
theorem C7_tolerance_mono (slice : List Token) (target : ℚ) (t1 t2 : ℕ) (f : Bool)
    (r : ℚ) (b c : ℕ) (hle : t1 ≤ t2)
    (h : measureFit slice target t1 f = .feasible r b c) :
    measureFit slice target t2 f = .feasible r b c :=
  measureFit_tol_mono hle h

/-- Witness for C7: a fit feasible at tolerance 1000 stays identical at
tolerance 2000. -/
theorem C7_tolerance_mono_witness :
    measureFit [Token.box 80 "", .glue 10 5 3, .box 80 ""] 180 2000 false =
      .feasible 2 800 3 :=
  C7_tolerance_mono [Token.box 80 "", .glue 10 5 3, .box 80 ""] 180 1000 2000 false
    2 800 3 (by decide) (by decide)

/-- Claim C8 counterexample: on the spec-8 scenario (tokens Box(80)
Glue(10,5,3) Box(80) Glue(10,5,3) Box(80), width 180, tolerance 100) the
engine does not produce a first line covering only tokens [0,3) with ratio 2:
under the spec's own measure (the break glue is the final token of its range
and counts toward natural width, spec 4.1) and tolerance rules (badness 800 of
ratio 2 exceeds tolerance 100, spec 6), the produced lines are [0,4) with
ratio 0 and [4,5). -/
theorem C8_scenario_cex :
    ¬ ∃ l1 l2 : Line, optimize scenarioTokens 180 100 = .ok [l1, l2] ∧
        l1.startIdx = 0 ∧ l1.endIdx = 3 ∧ l1.adj = 2 ∧
        l2.startIdx = 4 ∧ l2.endIdx = 5 := by
  rintro ⟨l1, l2, h, h1s, h1e, h1r, h2s, h2e⟩
  have hval : optimize scenarioTokens 180 100 =
      .ok [⟨0, 4, 0, 1⟩, ⟨4, 5, 0, 1⟩] := rfl
  rw [hval] at h
  have hl := Except.ok.inj h
  have hl1 : ({ startIdx := 0, endIdx := 4, adj := 0, fc := 1 } : Line) = l1 := by
    injection hl
  rw [← hl1] at h1e
  exact absurd h1e (by decide)

/-- Claim C8 (amended): on the spec-8 scenario the engine produces exactly two
lines, the first covering tokens [0,4) (Box, Glue, Box, and the break Glue,
which per spec 4.1 is the final token of the range) with ratio 0 (its natural
width 180 equals the target), the second covering [4,5) (the final Box) with
ratio 0 by the forced-break zero-stretch convention. -/
theorem C8_scenario_amended :
    optimize scenarioTokens 180 100 =
      .ok [⟨0, 4, 0, 1⟩, ⟨4, 5, 0, 1⟩] := rfl

/-- Claim C9: the empty token stream trivially yields zero lines, not an
error, for every target width and tolerance. -/
theorem C9_empty_stream (target : ℚ) (tol : ℕ) :
    optimize [] target tol = .ok [] := rfl

/-- Claim C10: in `tokens.h`, every variant struct stores the
`enum token_type` discriminant as its first field, and for every value of the
`token` union the type tag read through any of the three members equals the
discriminant of the member that was actually written. -/
theorem C10_union_discriminant :
    (box.layout.head? = some ("type", "enum token_type") ∧
      glue.layout.head? = some ("type", "enum token_type") ∧
      penalty.layout.head? = some ("type", "enum token_type")) ∧
    ∀ t : tokenU,
      t.readTypeViaBox = t.storedType ∧
      t.readTypeViaGlue = t.storedType ∧
      t.readTypeViaPenalty = t.storedType ∧
      (∀ b, t = .viaBox b → t.storedType = b.type) ∧
      (∀ g, t = .viaGlue g → t.storedType = g.type) ∧
      (∀ p, t = .viaPenalty p → t.storedType = p.type) := by
  refine ⟨⟨rfl, rfl, rfl⟩, ?_⟩
  intro t
  refine ⟨rfl, rfl, rfl, ?_, ?_, ?_⟩
  · rintro b rfl
    rfl
  · rintro g rfl
    rfl
  · rintro p rfl
    rfl

/-- Witness for C10 at a concrete union value written through the glue member. -/
theorem C10_union_discriminant_witness :
    (tokenU.viaGlue ⟨.GLUE, 1, 2, 3⟩).readTypeViaBox =
        (tokenU.viaGlue ⟨.GLUE, 1, 2, 3⟩).storedType ∧
      (tokenU.viaGlue ⟨.GLUE, 1, 2, 3⟩).storedType = token_type.GLUE :=
  ⟨(C10_union_discriminant.2 _).1,
   (C10_union_discriminant.2 _).2.2.2.2.1 ⟨.GLUE, 1, 2, 3⟩ rfl⟩
